import Mathlib

/-!
Shallow embedding of the swapvec crate: a growable vector that spills
batches of elements to a temporary file once configured thresholds are
exceeded, and replays the full sequence through an iterator.

Machine bytes are modelled as Nat; the external collaborators of the
crate (bincode element serialization, the lz4/miniz compression codecs
and the std DefaultHasher) are passed in as explicit function
parameters, mirroring the opaque contracts the source relies on.
Fallible io steps that the pure model cannot exercise (writes, flushes,
seeks, the buffered-writer recovery at finalization) are modelled by
explicit outcome parameters where a claim depends on them.
-/

/-- Mirrors SwapVecError (src/error.rs).  The bincode payload of
SerializationFailed is dropped. -/
inductive SwapVecError where
  | missingPermissions
  | outOfDisk
  | wrongChecksum
  | decompression
  | serializationFailed
  | other
deriving DecidableEq, Repr

/-- An abstract std io error, retaining only the error-kind distinction
used by the From conversion into SwapVecError (src/error.rs). -/
inductive IoErr where
  | permissionDenied
  | other
deriving DecidableEq, Repr

/-- From std io Error for SwapVecError (src/error.rs lines 28 to 37). -/
def IoErr.toSwapVecError : IoErr → SwapVecError
  | .permissionDenied => .missingPermissions
  | .other => .other

/-- BatchInfo (src/checkedfile.rs): metadata for one persisted batch. -/
structure BatchInfo where
  hash : Nat
  bytes : Nat
deriving DecidableEq, Repr

/-- BatchWriter (src/checkedfile.rs): the write-mode store handle.  The
underlying buffered file is modelled by the list of all bytes written so
far, in order. -/
structure BatchWriter where
  data : List Nat
  batch_infos : List BatchInfo
deriving DecidableEq, Repr

def BatchWriter.new : BatchWriter := { data := [], batch_infos := [] }

/-- BatchWriter::write_batch with explicit outcomes for its two fallible
io steps (write_all, then flush): it appends the bytes, then appends the
BatchInfo record, then flushes.  Returns the post-call writer state and
the io outcome, mirroring that the record stays appended when only the
flush fails. -/
def BatchWriter.write_batch_fallible (hash : List Nat → Nat) (w : BatchWriter)
    (buffer : List Nat) (write_result flush_result : Option IoErr) :
    BatchWriter × Option IoErr :=
  match write_result with
  | some e => (w, some e)
  | none =>
    let w' : BatchWriter :=
      { data := w.data ++ buffer,
        batch_infos := w.batch_infos ++ [⟨hash buffer, buffer.length⟩] }
    (w', flush_result)

/-- BatchWriter::write_batch on the io success path, as used by
SwapVec::after_push_work in the pure model. -/
def BatchWriter.write_batch (hash : List Nat → Nat) (w : BatchWriter)
    (buffer : List Nat) : BatchWriter :=
  (BatchWriter.write_batch_fallible hash w buffer none none).1

/-- BatchWriter::bytes_written: sum of the recorded byte lengths. -/
def BatchWriter.bytes_written (w : BatchWriter) : Nat :=
  (w.batch_infos.map BatchInfo.bytes).sum

def BatchWriter.batch_count (w : BatchWriter) : Nat := w.batch_infos.length

/-- BatchReader (src/checkedfile.rs): the read-mode store handle.  The
buffered reader cursor is the field pos. -/
structure BatchReader where
  data : List Nat
  batch_infos : List BatchInfo
  batch_index : Nat
  pos : Nat
  buffer : List Nat
deriving DecidableEq, Repr

/-- TryFrom BatchWriter for BatchReader on the success path: recover the
inner handle, seek it to the start, carry the index over unchanged. -/
def BatchReader.ofWriter (w : BatchWriter) : BatchReader :=
  { data := w.data, batch_infos := w.batch_infos,
    batch_index := 0, pos := 0, buffer := [] }

/-- BatchReader::read_batch (src/checkedfile.rs).  NOTE: the source
computes the checksum comparison but the branch returning WrongChecksum
is commented out (checkedfile.rs lines 74 to 76); both branches of the
comparison below therefore return the same value, mirroring the source. -/
def BatchReader.read_batch (hash : List Nat → Nat) (r : BatchReader) :
    Except SwapVecError (Option (List Nat)) × BatchReader :=
  let idx := r.batch_index
  let r1 : BatchReader := { r with batch_index := r.batch_index + 1 }
  match r1.batch_infos.get? idx with
  | none => (.ok none, r1)
  | some info =>
    if r1.pos + info.bytes ≤ r1.data.length then
      let buf := (r1.data.drop r1.pos).take info.bytes
      let r2 : BatchReader := { r1 with buffer := buf, pos := r1.pos + info.bytes }
      if hash buf ≠ info.hash then
        (.ok (some buf), r2)
      else
        (.ok (some buf), r2)
    else
      (.error .other, r1)

/-- BatchReader::reset on the seek success path. -/
def BatchReader.reset (r : BatchReader) : BatchReader :=
  { r with pos := 0, batch_index := 0, buffer := [] }

/-- The opaque collaborators of the container: bincode serialization of
a batch of elements, the configured compression transform
(src/compression.rs dispatch), and the hasher (std DefaultHasher). -/
structure Codec (α : Type) where
  serialize : List α → List Nat
  deserialize : List Nat → Option (List α)
  compress : List Nat → List Nat
  decompress : List Nat → Option (List Nat)
  hash : List Nat → Nat

/-- SwapVecConfig (src/swapvec.rs); the compression choice enters the
model through the Codec. -/
structure SwapVecConfig where
  swap_after : Nat
  batch_size : Nat
deriving DecidableEq, Repr

/-- SwapVec (src/swapvec.rs): in-memory buffer plus optional write-mode
store handle. -/
structure SwapVec (α : Type) where
  tempfile : Option BatchWriter
  vector : List α
  config : SwapVecConfig

def SwapVec.with_config {α : Type} (config : SwapVecConfig) : SwapVec α :=
  { tempfile := none, vector := [], config := config }

/-- SwapVec::after_push_work (src/swapvec.rs lines 203 to 223) on the io
success path: the spill check and at most one batch flush. -/
def SwapVec.after_push_work {α : Type} (c : Codec α) (s : SwapVec α) : SwapVec α :=
  if s.vector.length ≤ s.config.batch_size then s
  else if s.tempfile.isNone ∧ s.vector.length ≤ s.config.swap_after then s
  else
    let w := s.tempfile.getD BatchWriter.new
    let batch := s.vector.take s.config.batch_size
    let buffer := c.serialize batch
    let compressed := c.compress buffer
    { s with tempfile := some (BatchWriter.write_batch c.hash w compressed),
             vector := s.vector.drop s.config.batch_size }

/-- SwapVec::push: append at the buffer tail, then run the spill check. -/
def SwapVec.push {α : Type} (c : Codec α) (s : SwapVec α) (element : α) : SwapVec α :=
  SwapVec.after_push_work c { s with vector := s.vector ++ [element] }

/-- SwapVec::consume: for each element, push (which itself runs
after_push_work) and then run after_push_work once more, exactly as the
source loop does. -/
def SwapVec.consume {α : Type} (c : Codec α) (s : SwapVec α) (it : List α) : SwapVec α :=
  it.foldl (fun t e => SwapVec.after_push_work c (SwapVec.push c t e)) s

/-- Repeated SwapVec::push, one call per element. -/
def SwapVec.pushAll {α : Type} (c : Codec α) (s : SwapVec α) (es : List α) : SwapVec α :=
  es.foldl (SwapVec.push c) s

def SwapVec.written_to_file {α : Type} (s : SwapVec α) : Bool := s.tempfile.isSome

def SwapVec.file_size {α : Type} (s : SwapVec α) : Option Nat :=
  s.tempfile.map BatchWriter.bytes_written

def SwapVec.batches_written {α : Type} (s : SwapVec α) : Nat :=
  match s.tempfile with
  | none => 0
  | some f => f.batch_count

/-- Rust Vec::pop: removes and returns the last element. -/
def vecPop {α : Type} (l : List α) : Option α × List α :=
  match l.getLast? with
  | none => (none, l)
  | some x => (some x, l.dropLast)

/-- SwapVecIter (src/swapveciter.rs). -/
structure SwapVecIter (α : Type) where
  new_error : Option IoErr
  current_batch_rev : List α
  tempfile : Option BatchReader
  last_elements : List α
  last_elements_index : Nat
  config : SwapVecConfig

/-- SwapVecIter::new (src/swapveciter.rs lines 60 to 80), with the
outcome of the write-to-read conversion passed in explicitly. -/
def SwapVecIter.new {α : Type} (tempfile_written : Option (Except IoErr BatchReader))
    (last_elements : List α) (config : SwapVecConfig) : SwapVecIter α :=
  match tempfile_written with
  | none =>
    { new_error := none, current_batch_rev := [], tempfile := none,
      last_elements := last_elements, last_elements_index := 0, config := config }
  | some (.ok v) =>
    { new_error := none, current_batch_rev := [], tempfile := some v,
      last_elements := last_elements, last_elements_index := 0, config := config }
  | some (.error e) =>
    { new_error := some e, current_batch_rev := [], tempfile := none,
      last_elements := last_elements, last_elements_index := 0, config := config }

/-- IntoIterator for SwapVec on the conversion success path. -/
def SwapVec.into_iter {α : Type} (s : SwapVec α) : SwapVecIter α :=
  SwapVecIter.new (s.tempfile.map (fun w => .ok (BatchReader.ofWriter w))) s.vector s.config

/-- SwapVecIter::read_batch (src/swapveciter.rs lines 82 to 106).  Note
the source checks tempfile.is_none() before looking at new_error. -/
def SwapVecIter.read_batch {α : Type} (c : Codec α) (it : SwapVecIter α) :
    Except SwapVecError (Option (List α)) × SwapVecIter α :=
  match it.tempfile with
  | none => (.ok none, it)
  | some tf =>
    match it.new_error with
    | some err => (.error err.toSwapVecError, { it with new_error := none })
    | none =>
      match BatchReader.read_batch c.hash tf with
      | (.error e, tf') => (.error e, { it with tempfile := some tf' })
      | (.ok none, tf') => (.ok none, { it with tempfile := some tf' })
      | (.ok (some buffer), tf') =>
        match c.decompress buffer with
        | none => (.error .decompression, { it with tempfile := some tf' })
        | some decompressed =>
          match c.deserialize decompressed with
          | none => (.error .serializationFailed, { it with tempfile := some tf' })
          | some batch => (.ok (some batch), { it with tempfile := some tf' })

/-- SwapVecIter::next_in_batch (src/swapveciter.rs lines 108 to 119). -/
def SwapVecIter.next_in_batch {α : Type} (c : Codec α) (it : SwapVecIter α) :
    Except SwapVecError (Option α) × SwapVecIter α :=
  match vecPop it.current_batch_rev with
  | (some v, rest) => (.ok (some v), { it with current_batch_rev := rest })
  | (none, _) =>
    match SwapVecIter.read_batch c it with
    | (.error e, it') => (.error e, it')
    | (.ok none, it') => (.ok none, it')
    | (.ok (some new_batch), it') =>
      match vecPop new_batch.reverse with
      | (popped, rest) => (.ok popped, { it' with current_batch_rev := rest })

/-- Iterator::next for SwapVecIter (src/swapveciter.rs lines 149 to 163). -/
def SwapVecIter.next {α : Type} (c : Codec α) (it : SwapVecIter α) :
    Option (Except SwapVecError α) × SwapVecIter α :=
  match vecPop it.current_batch_rev with
  | (some item, rest) => (some (.ok item), { it with current_batch_rev := rest })
  | (none, _) =>
    match SwapVecIter.next_in_batch c it with
    | (.error err, it') => (some (.error err), it')
    | (.ok (some item), it') => (some (.ok item), it')
    | (.ok none, it') =>
      let index := it'.last_elements_index
      let it'' : SwapVecIter α := { it' with last_elements_index := index + 1 }
      ((it''.last_elements.get? index).map (fun x => .ok x), it'')

/-- SwapVecIter::reset (src/swapveciter.rs lines 135 to 143), with the
outcome of the underlying seek passed in explicitly; on seek failure the
error is stored in new_error and reset itself returns normally. -/
def SwapVecIter.reset {α : Type} (seek_result : Option IoErr) (it : SwapVecIter α) :
    SwapVecIter α :=
  let it1 : SwapVecIter α := { it with current_batch_rev := [], last_elements_index := 0 }
  match it1.tempfile with
  | none => it1
  | some tf =>
    match seek_result with
    | none => { it1 with tempfile := some (BatchReader.reset tf) }
    | some e => { it1 with new_error := some e }

/-- Fuelled driver of SwapVecIter::next: collects the yielded items in
order, stopping at the first end-of-iteration, and returns the final
iterator state. -/
def SwapVecIter.drainS {α : Type} (c : Codec α) :
    Nat → SwapVecIter α → List (Except SwapVecError α) × SwapVecIter α
  | 0, it => ([], it)
  | fuel + 1, it =>
    match SwapVecIter.next c it with
    | (none, it') => ([], it')
    | (some x, it') =>
      let rest := SwapVecIter.drainS c fuel it'
      (x :: rest.1, rest.2)

/-- CompressionLevel (src/swapvec.rs). -/
inductive CompressionLevel where
  | slow
  | default
  | fast
deriving DecidableEq, Repr

/-- A caller-supplied compression algorithm: the two-operation Compress
capability (src/compression.rs). -/
structure CustomAlg where
  compress : List Nat → List Nat
  decompress : List Nat → Option (List Nat)

/-- Compression (src/swapvec.rs): the configured compression choice. -/
inductive Compression where
  | lz4
  | deflate (level : CompressionLevel)
  | custom (alg : CustomAlg)

/-- The external compression crates the dispatch delegates to:
lz4_flex::compress_prepend_size / decompress_size_prepended and
miniz_oxide compress_to_vec(level) / decompress_to_vec. -/
structure ExternalAlgs where
  lz4_compress : List Nat → List Nat
  lz4_decompress : List Nat → Option (List Nat)
  deflate_compress : Nat → List Nat → List Nat
  inflate : List Nat → Option (List Nat)

/-- The level mapping in Compress for Option Compression
(src/compression.rs lines 48 to 52). -/
def CompressionLevel.value : CompressionLevel → Nat
  | .fast => 2
  | .default => 6
  | .slow => 9

/-- Compress::compress for Option Compression (src/compression.rs
lines 44 to 58). -/
def optionCompress (ext : ExternalAlgs) : Option Compression → List Nat → List Nat
  | some .lz4, block => ext.lz4_compress block
  | some (.deflate level), block => ext.deflate_compress level.value block
  | some (.custom algo), block => algo.compress block
  | none, block => block

/-- Compress::decompress for Option Compression (src/compression.rs
lines 59 to 68). -/
def optionDecompress (ext : ExternalAlgs) : Option Compression → List Nat → Option (List Nat)
  | some .lz4, block => ext.lz4_decompress block
  | some (.deflate _), block => ext.inflate block
  | some (.custom algo), block => algo.decompress block
  | none, block => some block

/-- A concrete codec instance used to evaluate the model on concrete
inputs: identity serialization and compression, a sum hash. -/
def idCodec : Codec Nat :=
  { serialize := fun l => l
    deserialize := fun l => some l
    compress := fun l => l
    decompress := fun l => some l
    hash := fun l => l.sum }

/-! ### List helpers -/

theorem vecPop_reverse {α : Type} (l : List α) : vecPop l.reverse = (l.head?, l.tail.reverse) := by
  cases l with
  | nil => rfl
  | cons x xs =>
    simp [vecPop, List.reverse_cons, List.getLast?_concat, List.dropLast_concat]

theorem drop_of_get? {α : Type} : ∀ (l : List α) (i : Nat) (x : α),
    l.get? i = some x → l.drop i = x :: l.drop (i + 1)
  | a :: l, 0, x, h => by
    simp only [List.get?] at h
    injection h with h
    simp [h]
  | a :: l, i + 1, x, h => by
    have ih := drop_of_get? l i x (by simpa using h)
    simpa using ih
  | [], i, x, h => by simp at h

theorem drop_of_get?_none {α : Type} (l : List α) (i : Nat) (h : l.get? i = none) :
    l.drop i = [] :=
  List.drop_eq_nil_of_le (List.get?_eq_none.mp h)

theorem get?_append_length {α : Type} (l1 l2 : List α) :
    (l1 ++ l2).get? l1.length = l2.get? 0 := by
  induction l1 with
  | nil => rfl
  | cons a l ih => simpa using ih

theorem flatten_of_all_nil {α : Type} (l : List (List α)) (h : ∀ b ∈ l, b = []) :
    l.flatten = [] :=
  List.flatten_eq_nil_iff.mpr h

/-! ### Store encoding predicates -/

/-- The bytes one batch of elements becomes on disk: serialize, then
compress. -/
def encBatch {α : Type} (c : Codec α) (b : List α) : List Nat := c.compress (c.serialize b)

/-- The BatchInfo record write_batch appends for one batch. -/
def batchInfoOf {α : Type} (c : Codec α) (b : List α) : BatchInfo :=
  ⟨c.hash (encBatch c b), (encBatch c b).length⟩

/-- The write-mode store holds exactly the encodings of the logical
batches bss, in order, with matching index records. -/
def EncodesStore {α : Type} (c : Codec α) (w : BatchWriter) (bss : List (List α)) : Prop :=
  w.data = (bss.map (encBatch c)).flatten ∧
  w.batch_infos = bss.map (batchInfoOf c)

/-- A read-mode store whose contents encode done ++ pending and whose
cursors stand exactly at the boundary after done. -/
def ReaderAt {α : Type} (c : Codec α) (r : BatchReader) (done pending : List (List α)) : Prop :=
  r.data = ((done ++ pending).map (encBatch c)).flatten ∧
  r.batch_infos = (done ++ pending).map (batchInfoOf c) ∧
  r.batch_index = done.length ∧
  r.pos = ((done.map (encBatch c)).flatten).length

/-- A read-mode store whose batch index has run past the end of the
index; its contents still encode all. -/
def ReaderDone {α : Type} (c : Codec α) (r : BatchReader) (all : List (List α)) : Prop :=
  r.data = (all.map (encBatch c)).flatten ∧
  r.batch_infos = all.map (batchInfoOf c) ∧
  all.length ≤ r.batch_index

theorem readerAt_nil_done {α : Type} (c : Codec α) (r : BatchReader) (done : List (List α))
    (h : ReaderAt c r done []) : ReaderDone c r done := by
  obtain ⟨h1, h2, h3, _⟩ := h
  exact ⟨by simpa using h1, by simpa using h2, le_of_eq h3.symm⟩

theorem read_batch_eq_some (hash : List Nat → Nat) (r : BatchReader) (info : BatchInfo)
    (hget : r.batch_infos.get? r.batch_index = some info)
    (hcond : r.pos + info.bytes ≤ r.data.length) :
    BatchReader.read_batch hash r =
      (.ok (some ((r.data.drop r.pos).take info.bytes)),
       { r with batch_index := r.batch_index + 1,
                buffer := (r.data.drop r.pos).take info.bytes,
                pos := r.pos + info.bytes }) := by
  unfold BatchReader.read_batch
  simp only [hget, hcond, if_true]
  split <;> rfl

theorem read_batch_eq_none (hash : List Nat → Nat) (r : BatchReader)
    (hget : r.batch_infos.get? r.batch_index = none) :
    BatchReader.read_batch hash r = (.ok none, { r with batch_index := r.batch_index + 1 }) := by
  unfold BatchReader.read_batch
  simp only [hget]

theorem read_batch_cons {α : Type} (c : Codec α) (r : BatchReader)
    (done : List (List α)) (b : List α) (pending : List (List α))
    (h : ReaderAt c r done (b :: pending)) :
    ∃ r', BatchReader.read_batch c.hash r = (.ok (some (encBatch c b)), r') ∧
      ReaderAt c r' (done ++ [b]) pending := by
  obtain ⟨hdata, hinfos, hidx, hpos⟩ := h
  have hget : r.batch_infos.get? r.batch_index = some (batchInfoOf c b) := by
    rw [hinfos, hidx, List.map_append, ← List.length_map done (batchInfoOf c),
      get?_append_length]
    rfl
  have hsplit : r.data
      = (done.map (encBatch c)).flatten ++ (encBatch c b ++ (pending.map (encBatch c)).flatten) := by
    rw [hdata, List.map_append, List.flatten_append, List.map_cons, List.flatten_cons]
  have hcond : r.pos + (batchInfoOf c b).bytes ≤ r.data.length := by
    rw [hpos, hsplit]
    simp [batchInfoOf]
  have hslice : (r.data.drop r.pos).take (batchInfoOf c b).bytes = encBatch c b := by
    rw [hpos, hsplit, List.drop_left]
    show (encBatch c b ++ (pending.map (encBatch c)).flatten).take (encBatch c b).length = _
    rw [List.take_left]
  refine ⟨{ r with
              batch_index := r.batch_index + 1
              buffer := encBatch c b
              pos := r.pos + (batchInfoOf c b).bytes }, ?_, ?_⟩
  · rw [read_batch_eq_some c.hash r (batchInfoOf c b) hget hcond, hslice]
  · refine ⟨?_, ?_, ?_, ?_⟩
    · simpa [List.append_assoc] using hdata
    · simpa [List.append_assoc] using hinfos
    · simp [hidx]
    · rw [hpos]
      simp [batchInfoOf, encBatch]

theorem read_batch_past {α : Type} (c : Codec α) (r : BatchReader) (all : List (List α))
    (h : ReaderDone c r all) :
    ∃ r', BatchReader.read_batch c.hash r = (.ok none, r') ∧ ReaderDone c r' all := by
  obtain ⟨hdata, hinfos, hlen⟩ := h
  have hget : r.batch_infos.get? r.batch_index = none := by
    rw [List.get?_eq_none, hinfos]
    simpa using hlen
  exact ⟨_, read_batch_eq_none c.hash r hget,
    ⟨hdata, hinfos, by simpa using Nat.le_succ_of_le hlen⟩⟩

/-! ### Iterator state abstraction -/

/-- The read-mode store handle of an iterator, related to the batches
not yet decoded. -/
def TFAt {α : Type} (c : Codec α) (tf : Option BatchReader) (pending : List (List α)) : Prop :=
  (tf = none ∧ pending = []) ∨
  (∃ r done, tf = some r ∧ ReaderAt c r done pending) ∨
  (pending = [] ∧ ∃ r all, tf = some r ∧ ReaderDone c r all)

/-- Iterator state abstraction: staged holds the still-undelivered
elements of the batch being drained (in original order), pending the
batches not yet read from the store. -/
def IterAt {α : Type} (c : Codec α) (it : SwapVecIter α) (staged : List α)
    (pending : List (List α)) : Prop :=
  it.new_error = none ∧
  it.current_batch_rev = staged.reverse ∧
  TFAt c it.tempfile pending

theorem iter_read_cons {α : Type} (c : Codec α)
    (hd : ∀ bs, c.decompress (c.compress bs) = some bs)
    (hs : ∀ b, c.deserialize (c.serialize b) = some b)
    (it : SwapVecIter α) (staged : List α) (b : List α) (pending : List (List α))
    (h : IterAt c it staged (b :: pending)) :
    ∃ it', SwapVecIter.read_batch c it = (.ok (some b), it') ∧
      IterAt c it' staged pending ∧
      it'.current_batch_rev = it.current_batch_rev ∧
      it'.last_elements = it.last_elements ∧
      it'.last_elements_index = it.last_elements_index := by
  obtain ⟨hne, hcbr, htf⟩ := h
  rcases htf with ⟨_, hpend⟩ | ⟨r, done, htf, hra⟩ | ⟨hpend, _⟩
  · exact absurd hpend (by simp)
  · obtain ⟨r', hrb, hra'⟩ := read_batch_cons c r done b pending hra
    refine ⟨{ it with tempfile := some r' }, ?_,
      ⟨hne, hcbr, Or.inr (Or.inl ⟨r', done ++ [b], rfl, hra'⟩)⟩, rfl, rfl, rfl⟩
    simp only [SwapVecIter.read_batch, htf, hne, hrb, encBatch, hd, hs]
  · exact absurd hpend (by simp)

theorem iter_read_nil {α : Type} (c : Codec α)
    (it : SwapVecIter α) (staged : List α)
    (h : IterAt c it staged []) :
    ∃ it', SwapVecIter.read_batch c it = (.ok none, it') ∧
      IterAt c it' staged [] ∧
      it'.current_batch_rev = it.current_batch_rev ∧
      it'.last_elements = it.last_elements ∧
      it'.last_elements_index = it.last_elements_index := by
  obtain ⟨hne, hcbr, htf⟩ := h
  rcases htf with ⟨htfn, _⟩ | ⟨r, done, htf, hra⟩ | ⟨_, r, all, htf, hrd⟩
  · refine ⟨it, ?_, ⟨hne, hcbr, Or.inl ⟨htfn, rfl⟩⟩, rfl, rfl, rfl⟩
    simp only [SwapVecIter.read_batch, htfn]
  · obtain ⟨r', hrb, hrd'⟩ := read_batch_past c r done (readerAt_nil_done c r done hra)
    refine ⟨{ it with tempfile := some r' }, ?_,
      ⟨hne, hcbr, Or.inr (Or.inr ⟨rfl, r', done, rfl, hrd'⟩)⟩, rfl, rfl, rfl⟩
    simp only [SwapVecIter.read_batch, htf, hne, hrb]
  · obtain ⟨r', hrb, hrd'⟩ := read_batch_past c r all hrd
    refine ⟨{ it with tempfile := some r' }, ?_,
      ⟨hne, hcbr, Or.inr (Or.inr ⟨rfl, r', all, rfl, hrd'⟩)⟩, rfl, rfl, rfl⟩
    simp only [SwapVecIter.read_batch, htf, hne, hrb]

theorem next_staged {α : Type} (c : Codec α) (it : SwapVecIter α)
    (x : α) (xs : List α) (pending : List (List α))
    (h : IterAt c it (x :: xs) pending) :
    SwapVecIter.next c it = (some (.ok x), { it with current_batch_rev := xs.reverse }) ∧
    IterAt c { it with current_batch_rev := xs.reverse } xs pending := by
  obtain ⟨hne, hcbr, htf⟩ := h
  have hpop : vecPop it.current_batch_rev = (some x, xs.reverse) := by
    rw [hcbr, vecPop_reverse]
    rfl
  constructor
  · simp only [SwapVecIter.next, hpop]
  · exact ⟨hne, rfl, htf⟩

theorem next_from_batch {α : Type} (c : Codec α)
    (hd : ∀ bs, c.decompress (c.compress bs) = some bs)
    (hs : ∀ b, c.deserialize (c.serialize b) = some b)
    (it : SwapVecIter α) (y : α) (ys : List α) (pending : List (List α))
    (h : IterAt c it [] ((y :: ys) :: pending)) :
    ∃ it', SwapVecIter.next c it = (some (.ok y), it') ∧
      IterAt c it' ys pending ∧
      it'.last_elements = it.last_elements ∧
      it'.last_elements_index = it.last_elements_index := by
  obtain ⟨it1, hread, hat1, hcbr1, hle1, hidx1⟩ :=
    iter_read_cons c hd hs it [] (y :: ys) pending h
  obtain ⟨hne1, hcbr1', htf1⟩ := hat1
  have hpop : vecPop it.current_batch_rev = (none, it.current_batch_rev) := by
    rw [h.2.1]
    rfl
  have hpop2 : vecPop (y :: ys).reverse = (some y, ys.reverse) := by
    rw [vecPop_reverse]
    rfl
  refine ⟨{ it1 with current_batch_rev := ys.reverse }, ?_, ⟨hne1, rfl, htf1⟩, hle1, hidx1⟩
  simp only [SwapVecIter.next, SwapVecIter.next_in_batch, hpop, hread, hpop2]

theorem next_empty_batch {α : Type} (c : Codec α)
    (hd : ∀ bs, c.decompress (c.compress bs) = some bs)
    (hs : ∀ b, c.deserialize (c.serialize b) = some b)
    (it : SwapVecIter α) (pending : List (List α))
    (h : IterAt c it [] ([] :: pending)) :
    ∃ it', SwapVecIter.next c it
        = ((it.last_elements.get? it.last_elements_index).map (fun x => .ok x), it') ∧
      IterAt c it' [] pending ∧
      it'.last_elements = it.last_elements ∧
      it'.last_elements_index = it.last_elements_index + 1 := by
  obtain ⟨it1, hread, hat1, hcbr1, hle1, hidx1⟩ :=
    iter_read_cons c hd hs it [] [] pending h
  obtain ⟨hne1, hcbr1', htf1⟩ := hat1
  have hpop : vecPop it.current_batch_rev = (none, it.current_batch_rev) := by
    rw [h.2.1]
    rfl
  refine ⟨{ it1 with
              current_batch_rev := []
              last_elements_index := it1.last_elements_index + 1 }, ?_,
    ⟨hne1, rfl, htf1⟩, hle1, by rw [hidx1]⟩
  simp only [SwapVecIter.next, SwapVecIter.next_in_batch, hpop, hread]
  simp only [List.reverse_nil, vecPop, List.getLast?, hle1, hidx1]

theorem next_tail {α : Type} (c : Codec α) (it : SwapVecIter α)
    (h : IterAt c it [] []) :
    ∃ it', SwapVecIter.next c it
        = ((it.last_elements.get? it.last_elements_index).map (fun x => .ok x), it') ∧
      IterAt c it' [] [] ∧
      it'.last_elements = it.last_elements ∧
      it'.last_elements_index = it.last_elements_index + 1 := by
  obtain ⟨it1, hread, hat1, hcbr1, hle1, hidx1⟩ := iter_read_nil c it [] h
  obtain ⟨hne1, hcbr1', htf1⟩ := hat1
  have hpop : vecPop it.current_batch_rev = (none, it.current_batch_rev) := by
    rw [h.2.1]
    rfl
  refine ⟨{ it1 with last_elements_index := it1.last_elements_index + 1 }, ?_,
    ⟨hne1, hcbr1', htf1⟩, hle1, by rw [hidx1]⟩
  simp only [SwapVecIter.next, SwapVecIter.next_in_batch, hpop, hread, hle1, hidx1]

/-- The drained items of an iterator in a well-formed state: the staged
elements, then the pending batches, then the in-memory tail from the
cursor on, truncated by the available fuel.  The batch-size discipline
of the writer guarantees the side condition: every pending batch has the
same length, so either none is empty or all are. -/
theorem drainS_items {α : Type} (c : Codec α)
    (hd : ∀ bs, c.decompress (c.compress bs) = some bs)
    (hs : ∀ b, c.deserialize (c.serialize b) = some b) :
    ∀ (fuel : Nat) (it : SwapVecIter α) (staged : List α) (pending : List (List α)),
      IterAt c it staged pending →
      ((∀ b ∈ pending, b ≠ []) ∨ (∀ b ∈ pending, b = [])) →
      (SwapVecIter.drainS c fuel it).1 =
        ((staged ++ pending.flatten ++
          it.last_elements.drop it.last_elements_index).map Except.ok).take fuel := by
  intro fuel
  induction fuel with
  | zero => intro it staged pending _ _; rfl
  | succ fuel ih =>
    intro it staged pending hat hbatch
    match staged with
    | x :: xs =>
      obtain ⟨hnext, hat'⟩ := next_staged c it x xs pending hat
      show (SwapVecIter.drainS c (fuel + 1) it).1 = _
      rw [SwapVecIter.drainS, hnext]
      simp only []
      rw [ih _ xs pending hat' hbatch]
      simp
    | [] =>
      match pending with
      | [] =>
        obtain ⟨it', hnext, hat', hle, hidx⟩ := next_tail c it hat
        show (SwapVecIter.drainS c (fuel + 1) it).1 = _
        rw [SwapVecIter.drainS, hnext]
        match hg : it.last_elements.get? it.last_elements_index with
        | some e =>
          simp only [Option.map_some']
          rw [ih it' [] [] hat' (Or.inl (by simp))]
          rw [hle, hidx, drop_of_get? _ _ _ hg]
          simp
        | none =>
          simp only [Option.map_none']
          rw [drop_of_get?_none _ _ hg]
          simp
      | b :: rest =>
        rcases hbatch with hne | hnil
        · match b, hne _ (List.mem_cons_self _ _) with
          | y :: ys, _ =>
            obtain ⟨it', hnext, hat', hle, hidx⟩ := next_from_batch c hd hs it y ys rest hat
            show (SwapVecIter.drainS c (fuel + 1) it).1 = _
            rw [SwapVecIter.drainS, hnext]
            simp only []
            rw [ih it' ys rest hat' (Or.inl (fun b hb => hne b (List.mem_cons_of_mem _ hb)))]
            rw [hle, hidx]
            simp
        · have hb : b = [] := hnil _ (List.mem_cons_self _ _)
          subst hb
          obtain ⟨it', hnext, hat', hle, hidx⟩ := next_empty_batch c hd hs it rest hat
          have hrest : ∀ x ∈ rest, x = [] := fun x hx => hnil x (List.mem_cons_of_mem _ hx)
          have hrestflat : rest.flatten = [] := flatten_of_all_nil rest hrest
          show (SwapVecIter.drainS c (fuel + 1) it).1 = _
          rw [SwapVecIter.drainS, hnext]
          match hg : it.last_elements.get? it.last_elements_index with
          | some e =>
            simp only [Option.map_some']
            rw [ih it' [] rest hat' (Or.inr hrest)]
            rw [hle, hidx, drop_of_get? _ _ _ hg]
            simp [hrestflat]
          | none =>
            simp only [Option.map_none']
            rw [drop_of_get?_none _ _ hg]
            simp [hrestflat]

/-- The immutable part of an optional read-mode handle: its file
contents and its index. -/
def tfShape : Option BatchReader → Option (List Nat × List BatchInfo)
  | none => none
  | some r => some (r.data, r.batch_infos)

theorem read_batch_eq_err (hash : List Nat → Nat) (r : BatchReader) (info : BatchInfo)
    (hget : r.batch_infos.get? r.batch_index = some info)
    (hcond : ¬ (r.pos + info.bytes ≤ r.data.length)) :
    BatchReader.read_batch hash r
      = (.error .other, { r with batch_index := r.batch_index + 1 }) := by
  unfold BatchReader.read_batch
  simp only [hget, hcond, if_false]

theorem read_batch_shape (hash : List Nat → Nat) (r : BatchReader) :
    (BatchReader.read_batch hash r).2.data = r.data ∧
    (BatchReader.read_batch hash r).2.batch_infos = r.batch_infos := by
  rcases hg : r.batch_infos.get? r.batch_index with _ | info
  · rw [read_batch_eq_none hash r hg]
    exact ⟨rfl, rfl⟩
  · by_cases hc : r.pos + info.bytes ≤ r.data.length
    · rw [read_batch_eq_some hash r info hg hc]
      exact ⟨rfl, rfl⟩
    · rw [read_batch_eq_err hash r info hg hc]
      exact ⟨rfl, rfl⟩

theorem iter_read_none_tf {α : Type} (c : Codec α) (it : SwapVecIter α)
    (htf : it.tempfile = none) :
    SwapVecIter.read_batch c it = (.ok none, it) := by
  unfold SwapVecIter.read_batch
  rw [htf]

theorem iter_read_snd {α : Type} (c : Codec α) (it : SwapVecIter α) (tf : BatchReader)
    (htf : it.tempfile = some tf) (hne : it.new_error = none) :
    (SwapVecIter.read_batch c it).2
      = { it with tempfile := some (BatchReader.read_batch c.hash tf).2 } := by
  unfold SwapVecIter.read_batch
  rw [htf, hne]
  dsimp only
  rcases hrb : BatchReader.read_batch c.hash tf with ⟨res, tf'⟩
  cases res with
  | error e => rfl
  | ok o =>
    cases o with
    | none => rfl
    | some buffer =>
      dsimp only
      cases hdec : c.decompress buffer with
      | none => rfl
      | some decompressed =>
        dsimp only
        cases hdes : c.deserialize decompressed with
        | none => rfl
        | some batch => rfl

theorem next_outer {α : Type} (c : Codec α) (it : SwapVecIter α)
    (hne : it.new_error = none) :
    (SwapVecIter.next c it).2.new_error = none ∧
    (SwapVecIter.next c it).2.last_elements = it.last_elements ∧
    (SwapVecIter.next c it).2.config = it.config ∧
    tfShape (SwapVecIter.next c it).2.tempfile = tfShape it.tempfile := by
  have hread : (SwapVecIter.read_batch c it).2.new_error = none ∧
      (SwapVecIter.read_batch c it).2.last_elements = it.last_elements ∧
      (SwapVecIter.read_batch c it).2.config = it.config ∧
      tfShape (SwapVecIter.read_batch c it).2.tempfile = tfShape it.tempfile := by
    cases htf : it.tempfile with
    | none =>
      rw [iter_read_none_tf c it htf]
      exact ⟨hne, rfl, rfl, by rw [htf]⟩
    | some tf =>
      rw [iter_read_snd c it tf htf hne]
      refine ⟨hne, rfl, rfl, ?_⟩
      have hsh := read_batch_shape c.hash tf
      simp [tfShape, htf, hsh.1, hsh.2]
  unfold SwapVecIter.next SwapVecIter.next_in_batch
  rcases hpop : vecPop it.current_batch_rev with ⟨o, rest⟩
  cases o with
  | some x => exact ⟨hne, rfl, rfl, rfl⟩
  | none =>
    dsimp only
    rcases hrb : SwapVecIter.read_batch c it with ⟨res, it1⟩
    rw [hrb] at hread
    cases res with
    | error e => exact hread
    | ok o2 =>
      cases o2 with
      | none =>
        dsimp only
        exact hread
      | some nb =>
        dsimp only
        rcases hpop2 : vecPop nb.reverse with ⟨o3, rest3⟩
        cases o3 with
        | some item => exact hread
        | none =>
          dsimp only
          exact hread

theorem drainS_outer {α : Type} (c : Codec α) :
    ∀ (fuel : Nat) (it : SwapVecIter α), it.new_error = none →
      (SwapVecIter.drainS c fuel it).2.new_error = none ∧
      (SwapVecIter.drainS c fuel it).2.last_elements = it.last_elements ∧
      (SwapVecIter.drainS c fuel it).2.config = it.config ∧
      tfShape (SwapVecIter.drainS c fuel it).2.tempfile = tfShape it.tempfile := by
  intro fuel
  induction fuel with
  | zero => intro it hne; exact ⟨hne, rfl, rfl, rfl⟩
  | succ fuel ih =>
    intro it hne
    have hno := next_outer c it hne
    rw [SwapVecIter.drainS]
    rcases hnx : SwapVecIter.next c it with ⟨o, it'⟩
    rw [hnx] at hno
    cases o with
    | none =>
      dsimp only
      exact hno
    | some x =>
      dsimp only
      have hrec := ih it' hno.1
      exact ⟨hrec.1, hrec.2.1.trans hno.2.1, hrec.2.2.1.trans hno.2.2.1,
        hrec.2.2.2.trans hno.2.2.2⟩

/-! ### Spill-engine invariant -/

theorem apw_small {α : Type} (c : Codec α) (s : SwapVec α)
    (h : s.vector.length ≤ s.config.batch_size) :
    SwapVec.after_push_work c s = s := by
  unfold SwapVec.after_push_work
  rw [if_pos h]

theorem apw_defer {α : Type} (c : Codec α) (s : SwapVec α)
    (h1 : ¬ (s.vector.length ≤ s.config.batch_size))
    (h2 : s.tempfile.isNone ∧ s.vector.length ≤ s.config.swap_after) :
    SwapVec.after_push_work c s = s := by
  unfold SwapVec.after_push_work
  rw [if_neg h1, if_pos h2]

theorem apw_flush {α : Type} (c : Codec α) (s : SwapVec α)
    (h1 : ¬ (s.vector.length ≤ s.config.batch_size))
    (h2 : ¬ (s.tempfile.isNone ∧ s.vector.length ≤ s.config.swap_after)) :
    SwapVec.after_push_work c s
      = { s with
            tempfile := some (BatchWriter.write_batch c.hash (s.tempfile.getD BatchWriter.new)
              (c.compress (c.serialize (s.vector.take s.config.batch_size))))
            vector := s.vector.drop s.config.batch_size } := by
  unfold SwapVec.after_push_work
  rw [if_neg h1, if_neg h2]

theorem encodes_write {α : Type} (c : Codec α) (w : BatchWriter) (bss : List (List α))
    (b : List α) (h : EncodesStore c w bss) :
    EncodesStore c (BatchWriter.write_batch c.hash w (encBatch c b)) (bss ++ [b]) := by
  obtain ⟨hdata, hinfos⟩ := h
  constructor
  · show w.data ++ encBatch c b = _
    rw [hdata, List.map_append, List.flatten_append]
    simp
  · show w.batch_infos ++ [⟨c.hash (encBatch c b), (encBatch c b).length⟩] = _
    rw [hinfos, List.map_append]
    rfl

theorem encodes_new {α : Type} (c : Codec α) : EncodesStore c BatchWriter.new [] :=
  ⟨rfl, rfl⟩

/-- The spill-engine invariant: if no store exists the buffer holds
exactly the pushed elements and the max threshold has not been crossed;
once a store exists it encodes full batches of batch_size elements whose
concatenation with the buffer is the pushed sequence. -/
def SwapVec.Inv {α : Type} (c : Codec α) (cfg : SwapVecConfig) (s : SwapVec α)
    (es : List α) : Prop :=
  s.config = cfg ∧
  ((s.tempfile = none ∧ s.vector = es ∧
      es.length ≤ max cfg.swap_after cfg.batch_size) ∨
   (∃ w bss, s.tempfile = some w ∧ EncodesStore c w bss ∧
      (∀ b ∈ bss, b.length = cfg.batch_size) ∧
      bss.flatten ++ s.vector = es ∧
      max cfg.swap_after cfg.batch_size < es.length))

/-- The invariant in the middle of a push, when the new element is in
the buffer but the spill check has not yet run. -/
def SwapVec.MidInv {α : Type} (c : Codec α) (cfg : SwapVecConfig) (s : SwapVec α)
    (es : List α) : Prop :=
  s.config = cfg ∧
  ((s.tempfile = none ∧ s.vector = es ∧
      es.length ≤ max cfg.swap_after cfg.batch_size + 1) ∨
   (∃ w bss, s.tempfile = some w ∧ EncodesStore c w bss ∧
      (∀ b ∈ bss, b.length = cfg.batch_size) ∧
      bss.flatten ++ s.vector = es ∧
      max cfg.swap_after cfg.batch_size < es.length))

theorem work_mid {α : Type} (c : Codec α) (cfg : SwapVecConfig) (s : SwapVec α) (es : List α)
    (h : SwapVec.MidInv c cfg s es) : SwapVec.Inv c cfg (SwapVec.after_push_work c s) es := by
  obtain ⟨hcfg, hno | hsome⟩ := h
  · obtain ⟨htf, hv, hlen⟩ := hno
    by_cases h1 : s.vector.length ≤ s.config.batch_size
    · rw [apw_small c s h1]
      refine ⟨hcfg, Or.inl ⟨htf, hv, ?_⟩⟩
      rw [← hv, ← hcfg]
      exact le_trans h1 (le_max_right _ _)
    · by_cases h2 : s.vector.length ≤ s.config.swap_after
      · rw [apw_defer c s h1 ⟨by rw [htf]; rfl, h2⟩]
        refine ⟨hcfg, Or.inl ⟨htf, hv, ?_⟩⟩
        rw [← hv, ← hcfg]
        exact le_trans h2 (le_max_left _ _)
      · rw [apw_flush c s h1 (fun hh => h2 hh.2)]
        have hBlt : s.config.batch_size < s.vector.length := Nat.lt_of_not_le h1
        have hAlt : s.config.swap_after < s.vector.length := Nat.lt_of_not_le h2
        refine ⟨hcfg, Or.inr ⟨_, [s.vector.take s.config.batch_size], rfl, ?_, ?_, ?_, ?_⟩⟩
        · rw [htf]
          exact encodes_write c BatchWriter.new [] _ (encodes_new c)
        · intro b hb
          rw [List.mem_singleton] at hb
          subst hb
          rw [← hcfg]
          rw [List.length_take]
          omega
        · show (s.vector.take s.config.batch_size ++ []) ++ s.vector.drop s.config.batch_size = es
          rw [List.append_nil, List.take_append_drop]
          exact hv
        · rw [← hv, ← hcfg]
          have := le_trans (le_max_left s.config.swap_after s.config.batch_size) (le_refl _)
          omega
  · obtain ⟨w, bss, htf, henc, hlen, hflat, hmax⟩ := hsome
    by_cases h1 : s.vector.length ≤ s.config.batch_size
    · rw [apw_small c s h1]
      exact ⟨hcfg, Or.inr ⟨w, bss, htf, henc, hlen, hflat, hmax⟩⟩
    · have h2' : ¬ (s.tempfile.isNone ∧ s.vector.length ≤ s.config.swap_after) := by
        rw [htf]
        intro hh
        exact absurd hh.1 (by simp)
      rw [apw_flush c s h1 h2']
      have hBlt : s.config.batch_size < s.vector.length := Nat.lt_of_not_le h1
      refine ⟨hcfg, Or.inr ⟨_, bss ++ [s.vector.take s.config.batch_size], rfl, ?_, ?_, ?_, hmax⟩⟩
      · rw [htf]
        exact encodes_write c w bss _ henc
      · intro b hb
        rw [List.mem_append] at hb
        rcases hb with hb | hb
        · exact hlen b hb
        · rw [List.mem_singleton] at hb
          subst hb
          rw [← hcfg, List.length_take]
          omega
      · show (bss ++ [s.vector.take s.config.batch_size]).flatten
            ++ s.vector.drop s.config.batch_size = es
        rw [List.flatten_append]
        simp only [List.flatten_cons, List.flatten_nil, List.append_nil]
        rw [List.append_assoc, List.take_append_drop]
        exact hflat

theorem inv_mid {α : Type} (c : Codec α) (cfg : SwapVecConfig) (s : SwapVec α) (es : List α)
    (h : SwapVec.Inv c cfg s es) : SwapVec.MidInv c cfg s es := by
  obtain ⟨hcfg, hno | hsome⟩ := h
  · obtain ⟨htf, hv, hlen⟩ := hno
    exact ⟨hcfg, Or.inl ⟨htf, hv, Nat.le_succ_of_le hlen⟩⟩
  · exact ⟨hcfg, Or.inr hsome⟩

theorem mid_push {α : Type} (c : Codec α) (cfg : SwapVecConfig) (s : SwapVec α) (es : List α)
    (e : α) (h : SwapVec.Inv c cfg s es) :
    SwapVec.MidInv c cfg { s with vector := s.vector ++ [e] } (es ++ [e]) := by
  obtain ⟨hcfg, hno | hsome⟩ := h
  · obtain ⟨htf, hv, hlen⟩ := hno
    refine ⟨hcfg, Or.inl ⟨htf, by rw [hv], ?_⟩⟩
    simp only [List.length_append, List.length_singleton]
    omega
  · obtain ⟨w, bss, htf, henc, hlen, hflat, hmax⟩ := hsome
    refine ⟨hcfg, Or.inr ⟨w, bss, htf, henc, hlen, ?_, ?_⟩⟩
    · show bss.flatten ++ (s.vector ++ [e]) = es ++ [e]
      rw [← List.append_assoc, hflat]
    · simp only [List.length_append, List.length_singleton]
      omega

theorem inv_push {α : Type} (c : Codec α) (cfg : SwapVecConfig) (s : SwapVec α) (es : List α)
    (e : α) (h : SwapVec.Inv c cfg s es) :
    SwapVec.Inv c cfg (SwapVec.push c s e) (es ++ [e]) :=
  work_mid c cfg _ _ (mid_push c cfg s es e h)

theorem inv_work {α : Type} (c : Codec α) (cfg : SwapVecConfig) (s : SwapVec α) (es : List α)
    (h : SwapVec.Inv c cfg s es) :
    SwapVec.Inv c cfg (SwapVec.after_push_work c s) es :=
  work_mid c cfg _ _ (inv_mid c cfg s es h)

theorem inv_init {α : Type} (c : Codec α) (cfg : SwapVecConfig) :
    SwapVec.Inv c cfg (SwapVec.with_config cfg : SwapVec α) [] :=
  ⟨rfl, Or.inl ⟨rfl, rfl, Nat.zero_le _⟩⟩

/-- The states a container can be in: the empty just-configured state,
and anything reachable from it by SwapVec::push steps and extra
after_push_work (spill check) steps, together with the sequence of all
elements pushed so far. -/
inductive SwapVec.Reachable {α : Type} (c : Codec α) (cfg : SwapVecConfig) :
    SwapVec α → List α → Prop where
  | init : SwapVec.Reachable c cfg (SwapVec.with_config cfg) []
  | push (s : SwapVec α) (es : List α) (e : α) :
      SwapVec.Reachable c cfg s es →
      SwapVec.Reachable c cfg (SwapVec.push c s e) (es ++ [e])
  | work (s : SwapVec α) (es : List α) :
      SwapVec.Reachable c cfg s es →
      SwapVec.Reachable c cfg (SwapVec.after_push_work c s) es

theorem reachable_inv {α : Type} (c : Codec α) (cfg : SwapVecConfig) (s : SwapVec α)
    (es : List α) (h : SwapVec.Reachable c cfg s es) : SwapVec.Inv c cfg s es := by
  induction h with
  | init => exact inv_init c cfg
  | push s es e _ ih => exact inv_push c cfg s es e ih
  | work s es _ ih => exact inv_work c cfg s es ih

theorem reachable_pushAll_from {α : Type} (c : Codec α) (cfg : SwapVecConfig) :
    ∀ (l : List α) (s : SwapVec α) (es : List α), SwapVec.Reachable c cfg s es →
      SwapVec.Reachable c cfg (SwapVec.pushAll c s l) (es ++ l) := by
  intro l
  induction l with
  | nil => intro s es h; simpa using h
  | cons x xs ih =>
    intro s es h
    have h' := SwapVec.Reachable.push s es x h
    have := ih (SwapVec.push c s x) (es ++ [x]) h'
    simpa [SwapVec.pushAll] using this

theorem reachable_pushAll {α : Type} (c : Codec α) (cfg : SwapVecConfig) (l : List α) :
    SwapVec.Reachable c cfg (SwapVec.pushAll c (SwapVec.with_config cfg) l) l := by
  have := reachable_pushAll_from c cfg l (SwapVec.with_config cfg) [] SwapVec.Reachable.init
  simpa using this

theorem reachable_consume_from {α : Type} (c : Codec α) (cfg : SwapVecConfig) :
    ∀ (l : List α) (s : SwapVec α) (es : List α), SwapVec.Reachable c cfg s es →
      SwapVec.Reachable c cfg (SwapVec.consume c s l) (es ++ l) := by
  intro l
  induction l with
  | nil => intro s es h; simpa using h
  | cons x xs ih =>
    intro s es h
    have h' := SwapVec.Reachable.work _ _ (SwapVec.Reachable.push s es x h)
    have := ih _ (es ++ [x]) h'
    simpa [SwapVec.consume] using this

/-! ### Finalization bridge -/

theorem into_iter_none {α : Type} (s : SwapVec α) (htf : s.tempfile = none) :
    SwapVec.into_iter s
      = { new_error := none, current_batch_rev := [], tempfile := none,
          last_elements := s.vector, last_elements_index := 0, config := s.config } := by
  unfold SwapVec.into_iter SwapVecIter.new
  rw [htf]
  rfl

theorem into_iter_some {α : Type} (s : SwapVec α) (w : BatchWriter)
    (htf : s.tempfile = some w) :
    SwapVec.into_iter s
      = { new_error := none, current_batch_rev := [],
          tempfile := some (BatchReader.ofWriter w),
          last_elements := s.vector, last_elements_index := 0, config := s.config } := by
  unfold SwapVec.into_iter SwapVecIter.new
  rw [htf]
  rfl

theorem ofWriter_readerAt {α : Type} (c : Codec α) (w : BatchWriter) (bss : List (List α))
    (h : EncodesStore c w bss) : ReaderAt c (BatchReader.ofWriter w) [] bss := by
  obtain ⟨hdata, hinfos⟩ := h
  exact ⟨by simpa using hdata, by simpa using hinfos, rfl, rfl⟩

theorem into_iter_at {α : Type} (c : Codec α) (cfg : SwapVecConfig) (s : SwapVec α)
    (es : List α) (h : SwapVec.Inv c cfg s es) :
    ∃ pending, IterAt c (SwapVec.into_iter s) [] pending ∧
      pending.flatten ++ s.vector = es ∧
      (∀ b ∈ pending, b.length = cfg.batch_size) ∧
      (SwapVec.into_iter s).last_elements = s.vector ∧
      (SwapVec.into_iter s).last_elements_index = 0 ∧
      (((SwapVec.into_iter s).tempfile = none ∧ pending = []) ∨
       (∃ r, (SwapVec.into_iter s).tempfile = some r ∧ ReaderAt c r [] pending)) := by
  obtain ⟨hcfg, hno | hsome⟩ := h
  · obtain ⟨htf, hv, _⟩ := hno
    rw [into_iter_none s htf]
    exact ⟨[], ⟨rfl, rfl, Or.inl ⟨rfl, rfl⟩⟩, by simpa using hv, by simp, rfl, rfl,
      Or.inl ⟨rfl, rfl⟩⟩
  · obtain ⟨w, bss, htf, henc, hlen, hflat, _⟩ := hsome
    rw [into_iter_some s w htf]
    exact ⟨bss, ⟨rfl, rfl, Or.inr (Or.inl ⟨_, [], rfl, ofWriter_readerAt c w bss henc⟩)⟩,
      hflat, hlen, rfl, rfl, Or.inr ⟨_, rfl, ofWriter_readerAt c w bss henc⟩⟩

theorem batch_sizes_disj {α : Type} (cfg : SwapVecConfig) (pending : List (List α))
    (hblen : ∀ b ∈ pending, b.length = cfg.batch_size) :
    (∀ b ∈ pending, b ≠ []) ∨ (∀ b ∈ pending, b = []) := by
  by_cases hB : cfg.batch_size = 0
  · right
    intro b hb
    have := hblen b hb
    rw [hB] at this
    exact List.length_eq_zero.mp this
  · left
    intro b hb hbe
    have hlb := hblen b hb
    rw [hbe] at hlb
    simp at hlb
    exact hB hlb.symm

/-- C1: for every container into which elements were pushed in order
(any swap_after, batch_size and, through the codec round-trip
hypotheses, any compression), the replay iterator before any reset
yields exactly Ok e0, ..., Ok en-1 once each, in order, and nothing
more: any fuel of at least n drains exactly the n pushed items. -/
theorem spec_c1_replay_order {α : Type} (c : Codec α)
    (hd : ∀ bs, c.decompress (c.compress bs) = some bs)
    (hs : ∀ b, c.deserialize (c.serialize b) = some b)
    (cfg : SwapVecConfig) (es : List α) (fuel : Nat) (hfuel : es.length ≤ fuel) :
    (SwapVecIter.drainS c fuel
      (SwapVec.into_iter (SwapVec.pushAll c (SwapVec.with_config cfg) es))).1
      = es.map Except.ok := by
  have hInv := reachable_inv c cfg _ es (reachable_pushAll c cfg es)
  obtain ⟨pending, hat, hflat, hblen, hle, hidx, _⟩ := into_iter_at c cfg _ es hInv
  rw [drainS_items c hd hs fuel _ [] pending hat (batch_sizes_disj cfg pending hblen)]
  rw [hle, hidx]
  simp only [List.drop_zero, List.nil_append]
  rw [hflat]
  exact List.take_of_length_le (by simpa using hfuel)

/-- Closed witness: pushing seven elements with batch_size 2 and
swap_after 3 (so three batches are persisted and one element stays in
memory) replays them in order. -/
theorem spec_c1_replay_order_witness :
    (SwapVecIter.drainS idCodec 7
      (SwapVec.into_iter (SwapVec.pushAll idCodec
        (SwapVec.with_config ⟨3, 2⟩) [10, 11, 12, 13, 14, 15, 16]))).1
      = [10, 11, 12, 13, 14, 15, 16].map Except.ok :=
  spec_c1_replay_order idCodec (fun _ => rfl) (fun _ => rfl) ⟨3, 2⟩
    [10, 11, 12, 13, 14, 15, 16] 7 (by decide)

/-! ### Reset -/

theorem tfShape_eq_none {tf : Option BatchReader} (h : tfShape tf = none) : tf = none := by
  cases tf with
  | none => rfl
  | some r => simp [tfShape] at h

theorem tfShape_eq_some {tf : Option BatchReader} {d : List Nat} {i : List BatchInfo}
    (h : tfShape tf = some (d, i)) :
    ∃ r, tf = some r ∧ r.data = d ∧ r.batch_infos = i := by
  cases tf with
  | none => simp [tfShape] at h
  | some r =>
    simp only [tfShape, Option.some_inj, Prod.mk.injEq] at h
    exact ⟨r, rfl, h.1, h.2⟩

theorem reset_eq_none_tf {α : Type} (sr : Option IoErr) (it : SwapVecIter α)
    (htf : it.tempfile = none) :
    SwapVecIter.reset sr it
      = { it with current_batch_rev := [], last_elements_index := 0 } := by
  unfold SwapVecIter.reset
  dsimp only
  rw [htf]

theorem reset_eq_some_seek_ok {α : Type} (it : SwapVecIter α) (tf : BatchReader)
    (htf : it.tempfile = some tf) :
    SwapVecIter.reset none it
      = { it with
            current_batch_rev := []
            last_elements_index := 0
            tempfile := some (BatchReader.reset tf) } := by
  unfold SwapVecIter.reset
  dsimp only
  rw [htf]

theorem reset_eq_some_seek_err {α : Type} (it : SwapVecIter α) (tf : BatchReader) (e : IoErr)
    (htf : it.tempfile = some tf) :
    SwapVecIter.reset (some e) it
      = { it with
            current_batch_rev := []
            last_elements_index := 0
            new_error := some e } := by
  unfold SwapVecIter.reset
  dsimp only
  rw [htf]

theorem next_surfaces_error {α : Type} (c : Codec α) (it : SwapVecIter α) (tf : BatchReader)
    (e : IoErr) (htf : it.tempfile = some tf) (hne : it.new_error = some e)
    (hcbr : it.current_batch_rev = []) :
    (SwapVecIter.next c it).1 = some (.error e.toSwapVecError) := by
  have hpop : vecPop it.current_batch_rev = (none, it.current_batch_rev) := by
    rw [hcbr]
    rfl
  have hrd : SwapVecIter.read_batch c it
      = (.error e.toSwapVecError, { it with new_error := none }) := by
    unfold SwapVecIter.read_batch
    rw [htf]
    dsimp only
    rw [hne]
  unfold SwapVecIter.next SwapVecIter.next_in_batch
  rw [hpop]
  dsimp only
  rw [hrd]

/-- C7: for every reachable finalized container (zero, one or many
persisted batches), draining the iterator fully, calling reset (whose
seek succeeds; reset itself never returns an error, by type), and
draining again yields the identical item sequence; and if a reset seek
fails, the error is deferred: reset still returns normally and the next
read surfaces it as an error item. -/
theorem spec_c7_reset_replay {α : Type} (c : Codec α)
    (hd : ∀ bs, c.decompress (c.compress bs) = some bs)
    (hs : ∀ b, c.deserialize (c.serialize b) = some b)
    (cfg : SwapVecConfig) (s : SwapVec α) (es : List α)
    (hr : SwapVec.Reachable c cfg s es) (fuel : Nat) (hfuel : es.length ≤ fuel) :
    (SwapVecIter.drainS c fuel (SwapVecIter.reset none
        (SwapVecIter.drainS c fuel (SwapVec.into_iter s)).2)).1
      = (SwapVecIter.drainS c fuel (SwapVec.into_iter s)).1 ∧
    (∀ e : IoErr,
      ((SwapVecIter.drainS c fuel (SwapVec.into_iter s)).2).tempfile.isSome = true →
      (SwapVecIter.next c (SwapVecIter.reset (some e)
          (SwapVecIter.drainS c fuel (SwapVec.into_iter s)).2)).1
        = some (.error e.toSwapVecError)) := by
  have hInv := reachable_inv c cfg s es hr
  obtain ⟨pending, hat, hflat, hblen, hle, hidx, htf0⟩ := into_iter_at c cfg s es hInv
  have hdisj := batch_sizes_disj cfg pending hblen
  have hval1 : (SwapVecIter.drainS c fuel (SwapVec.into_iter s)).1 = es.map Except.ok := by
    rw [drainS_items c hd hs fuel _ [] pending hat hdisj, hle, hidx]
    simp only [List.drop_zero, List.nil_append]
    rw [hflat]
    exact List.take_of_length_le (by simpa using hfuel)
  have houter := drainS_outer c fuel (SwapVec.into_iter s) hat.1
  cases htf1 : (SwapVecIter.drainS c fuel (SwapVec.into_iter s)).2.tempfile with
  | none =>
    have h0 : tfShape (SwapVec.into_iter s).tempfile = none := by
      rw [← houter.2.2.2, htf1]
      rfl
    have h0' : (SwapVec.into_iter s).tempfile = none := tfShape_eq_none h0
    have hpend : pending = [] := by
      rcases htf0 with ⟨_, hp⟩ | ⟨r, hsome, _⟩
      · exact hp
      · rw [h0'] at hsome
        exact absurd hsome (by simp)
    constructor
    · rw [reset_eq_none_tf none _ htf1]
      have hat2 : IterAt c
          { (SwapVecIter.drainS c fuel (SwapVec.into_iter s)).2 with
              current_batch_rev := ([] : List α)
              last_elements_index := 0 } [] [] :=
        ⟨houter.1, rfl, Or.inl ⟨htf1, rfl⟩⟩
      rw [drainS_items c hd hs fuel _ [] [] hat2 (Or.inl (by simp))]
      rw [hval1]
      show ((([] : List α) ++ ([] : List (List α)).flatten ++
        List.drop 0 ((SwapVecIter.drainS c fuel (SwapVec.into_iter s)).2.last_elements)).map
          Except.ok).take fuel = _
      rw [houter.2.1, hle]
      have hves : s.vector = es := by simpa [hpend] using hflat
      simp only [List.flatten_nil, List.nil_append, List.drop_zero]
      rw [hves]
      exact List.take_of_length_le (by simpa using hfuel)
    · intro e habs
      simp at habs
  | some r1 =>
    have h0 : tfShape (SwapVec.into_iter s).tempfile = some (r1.data, r1.batch_infos) := by
      rw [← houter.2.2.2, htf1]
      rfl
    obtain ⟨r0, h0some, hdata01, hinfos01⟩ := tfShape_eq_some h0
    have hra0 : ReaderAt c r0 [] pending := by
      rcases htf0 with ⟨hnone, _⟩ | ⟨r, hsome', hra⟩
      · rw [hnone] at h0some
        exact absurd h0some (by simp)
      · rw [hsome'] at h0some
        injection h0some with hr0
        rw [hr0] at hra
        exact hra
    have hra2 : ReaderAt c (BatchReader.reset r1) [] pending := by
      obtain ⟨hda, hin, _, _⟩ := hra0
      refine ⟨?_, ?_, rfl, rfl⟩
      · show r1.data = _
        rw [← hdata01]
        exact hda
      · show r1.batch_infos = _
        rw [← hinfos01]
        exact hin
    constructor
    · rw [reset_eq_some_seek_ok _ r1 htf1]
      have hat2 : IterAt c
          { (SwapVecIter.drainS c fuel (SwapVec.into_iter s)).2 with
              current_batch_rev := ([] : List α)
              last_elements_index := 0
              tempfile := some (BatchReader.reset r1) } [] pending :=
        ⟨houter.1, rfl, Or.inr (Or.inl ⟨BatchReader.reset r1, [], rfl, hra2⟩)⟩
      rw [drainS_items c hd hs fuel _ [] pending hat2 hdisj]
      rw [hval1]
      show ((([] : List α) ++ pending.flatten ++
        List.drop 0 ((SwapVecIter.drainS c fuel (SwapVec.into_iter s)).2.last_elements)).map
          Except.ok).take fuel = _
      rw [houter.2.1, hle]
      simp only [List.nil_append, List.drop_zero]
      rw [hflat]
      exact List.take_of_length_le (by simpa using hfuel)
    · intro e _
      rw [reset_eq_some_seek_err _ r1 e htf1]
      exact next_surfaces_error c _ r1 e htf1 rfl rfl

/-- Closed witness for C7: full drain, reset, full drain again over a
container with three persisted batches and one in-memory element. -/
theorem spec_c7_reset_replay_witness :
    (SwapVecIter.drainS idCodec 7 (SwapVecIter.reset none
        (SwapVecIter.drainS idCodec 7 (SwapVec.into_iter
          (SwapVec.pushAll idCodec (SwapVec.with_config ⟨3, 2⟩)
            [10, 11, 12, 13, 14, 15, 16]))).2)).1
      = (SwapVecIter.drainS idCodec 7 (SwapVec.into_iter
          (SwapVec.pushAll idCodec (SwapVec.with_config ⟨3, 2⟩)
            [10, 11, 12, 13, 14, 15, 16]))).1 :=
  (spec_c7_reset_replay idCodec (fun _ => rfl) (fun _ => rfl) ⟨3, 2⟩ _ _
    (reachable_pushAll idCodec ⟨3, 2⟩ [10, 11, 12, 13, 14, 15, 16]) 7 (by decide)).1

/-- C3: with swap_after A and batch_size B, pushing one element at a
time from a fresh container: if A exceeds B, written_to_file is false
while at most A elements have been pushed and true as soon as strictly
more than A have been; if A is at most B, it becomes true exactly once
strictly more than B elements have been pushed. -/
theorem spec_c3_threshold_gating {α : Type} (c : Codec α) (cfg : SwapVecConfig)
    (es : List α) :
    (cfg.batch_size < cfg.swap_after →
      ((SwapVec.pushAll c (SwapVec.with_config cfg) es).written_to_file = true
        ↔ cfg.swap_after < es.length)) ∧
    (cfg.swap_after ≤ cfg.batch_size →
      ((SwapVec.pushAll c (SwapVec.with_config cfg) es).written_to_file = true
        ↔ cfg.batch_size < es.length)) := by
  have key : (SwapVec.pushAll c (SwapVec.with_config cfg) es).written_to_file = true
      ↔ max cfg.swap_after cfg.batch_size < es.length := by
    obtain ⟨_, hno | hsome⟩ := reachable_inv c cfg _ es (reachable_pushAll c cfg es)
    · obtain ⟨htf, _, hlen⟩ := hno
      simp only [SwapVec.written_to_file, htf, Option.isSome_none]
      constructor
      · intro h
        exact absurd h (by simp)
      · intro h
        omega
    · obtain ⟨w, bss, htf, _, _, _, hmax⟩ := hsome
      simp only [SwapVec.written_to_file, htf, Option.isSome_some]
      exact ⟨fun _ => hmax, fun _ => trivial⟩
  constructor
  · intro hab
    rw [key, Nat.max_eq_left (Nat.le_of_lt hab)]
  · intro hab
    rw [key, Nat.max_eq_right hab]

/-- Closed witness for C3: with swap_after 5 and batch_size 2, six
pushes leave written_to_file false, seven make it true. -/
theorem spec_c3_threshold_gating_witness :
    (SwapVec.pushAll idCodec (SwapVec.with_config ⟨5, 2⟩)
      [1, 2, 3, 4, 5]).written_to_file = false ∧
    (SwapVec.pushAll idCodec (SwapVec.with_config ⟨5, 2⟩)
      [1, 2, 3, 4, 5, 6]).written_to_file = true := by
  constructor
  · have h := (spec_c3_threshold_gating idCodec ⟨5, 2⟩ [1, 2, 3, 4, 5]).1 (by decide)
    have : ¬ ((5 : Nat) < 5) := by decide
    cases hw : (SwapVec.pushAll idCodec (SwapVec.with_config ⟨5, 2⟩)
        [1, 2, 3, 4, 5]).written_to_file
    · rfl
    · rw [hw] at h
      exact absurd (h.mp rfl) (by decide)
  · exact ((spec_c3_threshold_gating idCodec ⟨5, 2⟩ [1, 2, 3, 4, 5, 6]).1 (by decide)).mpr
      (by decide)

/-- The logical batches a container's write-mode store encodes: none
when no store exists. -/
def SwapVec.StoreBatches {α : Type} (c : Codec α) (s : SwapVec α)
    (bss : List (List α)) : Prop :=
  (s.tempfile = none ∧ bss = []) ∨ (∃ w, s.tempfile = some w ∧ EncodesStore c w bss)

/-- C5: after every insertion and every spill-check flush, the
concatenation of all batches written to the store (in write order)
followed by the in-memory buffer equals the pushed sequence. -/
theorem spec_c5_buffer_invariant {α : Type} (c : Codec α) (cfg : SwapVecConfig)
    (s : SwapVec α) (es : List α) (hr : SwapVec.Reachable c cfg s es) :
    ∃ bss, SwapVec.StoreBatches c s bss ∧ bss.flatten ++ s.vector = es := by
  obtain ⟨_, hno | hsome⟩ := reachable_inv c cfg s es hr
  · obtain ⟨htf, hv, _⟩ := hno
    exact ⟨[], Or.inl ⟨htf, rfl⟩, by simpa using hv⟩
  · obtain ⟨w, bss, htf, henc, _, hflat, _⟩ := hsome
    exact ⟨bss, Or.inr ⟨w, htf, henc⟩, hflat⟩

/-- Closed witness for C5 at a state with one persisted batch and two
buffered elements. -/
theorem spec_c5_buffer_invariant_witness :
    ∃ bss, SwapVec.StoreBatches idCodec
        (SwapVec.pushAll idCodec (SwapVec.with_config ⟨2, 1⟩) [0, 1, 2]) bss ∧
      bss.flatten ++ (SwapVec.pushAll idCodec
        (SwapVec.with_config ⟨2, 1⟩) [0, 1, 2]).vector = [0, 1, 2] :=
  spec_c5_buffer_invariant idCodec ⟨2, 1⟩ _ [0, 1, 2]
    (reachable_pushAll idCodec ⟨2, 1⟩ [0, 1, 2])

/-- C8: file_size is absent exactly when no store has been created
(written_to_file false), and otherwise returns bytes_written, the sum of
the recorded byte lengths of all batches, which equals the total number
of bytes persisted to the store. -/
theorem spec_c8_file_size {α : Type} (c : Codec α) (cfg : SwapVecConfig)
    (s : SwapVec α) (es : List α) (hr : SwapVec.Reachable c cfg s es) :
    (s.file_size = none ↔ s.written_to_file = false) ∧
    (∀ w, s.tempfile = some w →
      s.file_size = some (BatchWriter.bytes_written w) ∧
      BatchWriter.bytes_written w = w.data.length) := by
  constructor
  · cases htf : s.tempfile with
    | none => simp [SwapVec.file_size, SwapVec.written_to_file, htf]
    | some w => simp [SwapVec.file_size, SwapVec.written_to_file, htf]
  · intro w hw
    constructor
    · simp [SwapVec.file_size, hw]
    · obtain ⟨_, hno | hsome⟩ := reachable_inv c cfg s es hr
      · rw [hno.1] at hw
        exact absurd hw (by simp)
      · obtain ⟨w', bss, htf, henc, _, _, _⟩ := hsome
        rw [htf] at hw
        injection hw with hw
        subst hw
        obtain ⟨hdata, hinfos⟩ := henc
        rw [BatchWriter.bytes_written, hdata, hinfos, List.length_flatten,
          List.map_map, List.map_map]
        rfl

/-- Closed witness for C8 at a state with two persisted one-byte
batches. -/
theorem spec_c8_file_size_witness :
    ((SwapVec.pushAll idCodec (SwapVec.with_config ⟨2, 1⟩)
        [0, 1, 2, 3]).file_size = none
      ↔ (SwapVec.pushAll idCodec (SwapVec.with_config ⟨2, 1⟩)
        [0, 1, 2, 3]).written_to_file = false) :=
  (spec_c8_file_size idCodec ⟨2, 1⟩ _ [0, 1, 2, 3]
    (reachable_pushAll idCodec ⟨2, 1⟩ [0, 1, 2, 3])).1

/-- C4: for every configured compression choice whose external
algorithms honour their round-trip contracts (lz4, deflate at every
level, or a caller-supplied algorithm satisfying the Compress contract),
decompress after compress returns the original bytes, and the
no-compression variant returns its input unchanged in both directions. -/
theorem spec_c4_compression_roundtrip (ext : ExternalAlgs)
    (hlz4 : ∀ b, ext.lz4_decompress (ext.lz4_compress b) = some b)
    (hdef : ∀ lvl b, ext.inflate (ext.deflate_compress lvl b) = some b)
    (choice : Option Compression)
    (hcustom : ∀ alg, choice = some (.custom alg) →
      ∀ b, alg.decompress (alg.compress b) = some b)
    (b : List Nat) :
    optionDecompress ext choice (optionCompress ext choice b) = some b ∧
    optionCompress ext none b = b ∧
    optionDecompress ext none b = some b := by
  refine ⟨?_, rfl, rfl⟩
  match choice with
  | none => rfl
  | some .lz4 => exact hlz4 b
  | some (.deflate level) => exact hdef level.value b
  | some (.custom alg) => exact hcustom alg rfl b

/-- Closed witness for C4 with identity external algorithms and the lz4
choice at a concrete byte list. -/
theorem spec_c4_compression_roundtrip_witness :
    optionDecompress ⟨fun l => l, fun l => some l, fun _ l => l, fun l => some l⟩
        (some .lz4)
        (optionCompress ⟨fun l => l, fun l => some l, fun _ l => l, fun l => some l⟩
          (some .lz4) [1, 2, 3])
      = some [1, 2, 3] :=
  (spec_c4_compression_roundtrip ⟨fun l => l, fun l => some l, fun _ l => l, fun l => some l⟩
    (fun _ => rfl) (fun _ _ => rfl) (some .lz4)
    (fun _ h => by cases h) [1, 2, 3]).1

/-- C10: when write_all succeeds and only the final flush fails,
write_batch returns the flush error, yet the BatchInfo record remains
appended to the index: batch_count grows by one and bytes_written counts
the new batch; the index is not rolled back. -/
theorem spec_c10_flush_failure_keeps_record (hash : List Nat → Nat) (w : BatchWriter)
    (buffer : List Nat) (e : IoErr) :
    (BatchWriter.write_batch_fallible hash w buffer none (some e)).2 = some e ∧
    (BatchWriter.write_batch_fallible hash w buffer none (some e)).1.batch_infos
      = w.batch_infos ++ [⟨hash buffer, buffer.length⟩] ∧
    (BatchWriter.write_batch_fallible hash w buffer none (some e)).1.batch_count
      = w.batch_count + 1 ∧
    (BatchWriter.write_batch_fallible hash w buffer none (some e)).1.bytes_written
      = w.bytes_written + buffer.length := by
  refine ⟨rfl, rfl, ?_, ?_⟩
  · simp [BatchWriter.write_batch_fallible, BatchWriter.batch_count]
  · simp [BatchWriter.write_batch_fallible, BatchWriter.bytes_written]

/-- C2 (evaluation at the failing input): a persisted batch recorded
with content hash 6 whose bytes read back as [9, 2, 3] hash to 14 under
the sum hash, yet read_batch returns Ok with the corrupted bytes
instead of the WrongChecksum error: the checksum branch is disabled in
the source (checkedfile.rs lines 74 to 76). -/
theorem spec_c2_checksum_not_enforced :
    (fun l : List Nat => l.sum) [9, 2, 3] ≠ (⟨6, 3⟩ : BatchInfo).hash ∧
    (BatchReader.read_batch (fun l : List Nat => l.sum)
        { data := [9, 2, 3], batch_infos := [⟨6, 3⟩],
          batch_index := 0, pos := 0, buffer := [] }).1
      = .ok (some [9, 2, 3]) := by
  exact ⟨by decide, rfl⟩

/-- C6 (evaluation at the failing input): when the write-to-read
conversion at finalization fails, the error is stored in new_error, but
because read_batch returns Ok None whenever tempfile is None before ever
consulting new_error, the first next() succeeds with the in-memory
element Ok 42 and a full drain is [Ok 42]: the stored error is never
surfaced, contradicting the source's own comment (fail at first try
then) and the spec. -/
theorem spec_c6_deferred_error_never_surfaced :
    (SwapVecIter.new (some (.error IoErr.other)) [42] ⟨16, 8⟩ : SwapVecIter Nat).new_error
      = some IoErr.other ∧
    (SwapVecIter.next idCodec (SwapVecIter.new (some (.error IoErr.other)) [42] ⟨16, 8⟩)).1
      = some (.ok 42) ∧
    (SwapVecIter.drainS idCodec 3
        (SwapVecIter.new (some (.error IoErr.other)) [42] ⟨16, 8⟩)).1
      = [.ok 42] := by
  exact ⟨rfl, rfl, rfl⟩

/-- C9 (counterexample): with swap_after 2 and batch_size 1, consuming
[0, 1, 2] writes two batches, while pushing the same three elements one
at a time writes only one batch and leaves a different buffer: consume
is not state-equivalent to one push per element. -/
theorem spec_c9_consume_counterexample :
    (SwapVec.consume idCodec (SwapVec.with_config ⟨2, 1⟩) [0, 1, 2]).batches_written = 2 ∧
    (SwapVec.pushAll idCodec (SwapVec.with_config ⟨2, 1⟩) [0, 1, 2]).batches_written = 1 ∧
    (SwapVec.consume idCodec (SwapVec.with_config ⟨2, 1⟩) [0, 1, 2]).vector
      ≠ (SwapVec.pushAll idCodec (SwapVec.with_config ⟨2, 1⟩) [0, 1, 2]).vector := by
  exact ⟨rfl, rfl, by decide⟩

/-- A bound under which consume and repeated push cannot diverge: the
buffer never exceeds batch_size elements while a store exists, nor the
max threshold before one does. -/
def SwapVec.SmallInv {α : Type} (cfg : SwapVecConfig) (s : SwapVec α) : Prop :=
  s.config = cfg ∧
  ((s.tempfile = none ∧ s.vector.length ≤ max cfg.swap_after cfg.batch_size) ∨
   (s.tempfile.isSome = true ∧ s.vector.length ≤ cfg.batch_size))

theorem small_push {α : Type} (c : Codec α) (cfg : SwapVecConfig)
    (hB : 1 ≤ cfg.batch_size) (hA : cfg.swap_after < 2 * cfg.batch_size)
    (s : SwapVec α) (e : α) (h : SwapVec.SmallInv cfg s) :
    SwapVec.SmallInv cfg (SwapVec.push c s e) := by
  obtain ⟨hcfg, hcase⟩ := h
  show SwapVec.SmallInv cfg (SwapVec.after_push_work c { s with vector := s.vector ++ [e] })
  rcases hcase with ⟨htf, hlen⟩ | ⟨htf, hlen⟩
  · by_cases h1 : s.vector.length + 1 ≤ cfg.batch_size
    · rw [apw_small c _ (by simp [hcfg, List.length_append]; omega)]
      refine ⟨hcfg, Or.inl ⟨htf, ?_⟩⟩
      simp only [List.length_append, List.length_singleton]
      omega
    · by_cases h2 : s.vector.length + 1 ≤ cfg.swap_after
      · rw [apw_defer c _ (by simp [hcfg, List.length_append]; omega)
          ⟨by simp [htf], by simp [hcfg, List.length_append]; omega⟩]
        refine ⟨hcfg, Or.inl ⟨htf, ?_⟩⟩
        simp only [List.length_append, List.length_singleton]
        omega
      · rw [apw_flush c _ (by simp [hcfg, List.length_append]; omega)
          (by rw [hcfg]; intro hh; simp [List.length_append] at hh; omega)]
        refine ⟨hcfg, Or.inr ⟨by simp, ?_⟩⟩
        simp only [List.length_drop, List.length_append, List.length_singleton, hcfg]
        omega
  · by_cases h1 : s.vector.length + 1 ≤ cfg.batch_size
    · rw [apw_small c _ (by simp [hcfg, List.length_append]; omega)]
      refine ⟨hcfg, Or.inr ⟨htf, ?_⟩⟩
      simp only [List.length_append, List.length_singleton]
      omega
    · rw [apw_flush c _ (by simp [hcfg, List.length_append]; omega)
        (by intro hh; rw [Option.isNone_iff_eq_none] at hh; rw [hh.1] at htf; simp at htf)]
      refine ⟨hcfg, Or.inr ⟨by simp, ?_⟩⟩
      simp only [List.length_drop, List.length_append, List.length_singleton, hcfg]
      omega

theorem small_work_id {α : Type} (c : Codec α) (cfg : SwapVecConfig)
    (s : SwapVec α) (h : SwapVec.SmallInv cfg s) :
    SwapVec.after_push_work c s = s := by
  obtain ⟨hcfg, hcase⟩ := h
  rcases hcase with ⟨htf, hlen⟩ | ⟨htf, hlen⟩
  · by_cases h1 : s.vector.length ≤ cfg.batch_size
    · exact apw_small c s (by rw [hcfg]; exact h1)
    · refine apw_defer c s (by rw [hcfg]; exact h1) ⟨by simp [htf], ?_⟩
      rw [hcfg]
      omega
  · exact apw_small c s (by rw [hcfg]; exact hlen)

theorem consume_eq_pushAll_from {α : Type} (c : Codec α) (cfg : SwapVecConfig)
    (hB : 1 ≤ cfg.batch_size) (hA : cfg.swap_after < 2 * cfg.batch_size) :
    ∀ (es : List α) (s : SwapVec α), SwapVec.SmallInv cfg s →
      SwapVec.consume c s es = SwapVec.pushAll c s es := by
  intro es
  induction es with
  | nil => intro s _; rfl
  | cons x xs ih =>
    intro s hsi
    have hinv' := small_push c cfg hB hA s x hsi
    have hid := small_work_id c cfg _ hinv'
    show List.foldl _ s (x :: xs) = List.foldl _ s (x :: xs)
    rw [List.foldl_cons, List.foldl_cons]
    show SwapVec.consume c (SwapVec.after_push_work c (SwapVec.push c s x)) xs
      = SwapVec.pushAll c (SwapVec.push c s x) xs
    rw [hid]
    exact ih _ hinv'

/-- C9 amended: consume runs the spill check twice per element (once
inside push and once more in its own loop), so it is not equivalent to
one push per element in general; the two coincide from a fresh container
whenever batch_size is at least 1 and swap_after is below twice
batch_size (in particular whenever swap_after is at most batch_size). -/
theorem spec_c9_consume_eq_pushAll {α : Type} (c : Codec α) (cfg : SwapVecConfig)
    (hB : 1 ≤ cfg.batch_size) (hA : cfg.swap_after < 2 * cfg.batch_size) (es : List α) :
    SwapVec.consume c (SwapVec.with_config cfg) es
      = SwapVec.pushAll c (SwapVec.with_config cfg) es :=
  consume_eq_pushAll_from c cfg hB hA es (SwapVec.with_config cfg)
    ⟨rfl, Or.inl ⟨rfl, Nat.zero_le _⟩⟩

/-- Closed witness for the amended C9: with swap_after 1 and batch_size
1, consume and repeated push agree on [5, 6, 7]. -/
theorem spec_c9_consume_eq_pushAll_witness :
    SwapVec.consume idCodec (SwapVec.with_config ⟨1, 1⟩) [5, 6, 7]
      = SwapVec.pushAll idCodec (SwapVec.with_config ⟨1, 1⟩) [5, 6, 7] :=
  spec_c9_consume_eq_pushAll idCodec ⟨1, 1⟩ (by decide) (by decide) [5, 6, 7]
